import Mathlib

/-!
Verification of the Visual Studio profiler stack collapser (`src/collapse/vsprof.rs`).

Strings are modelled as `List Char` (the Rust code operates on `&str` slices;
all slicing operations used by the source are faithfully reproduced on
character lists).  Fallible Rust functions returning `io::Result` are modelled
with `Except Err`; the `assert_eq!` in `Folder::on_line` (which aborts the run
by panicking) is modelled as the fatal error `Err.treeStructureViolation`.
-/

namespace Vsprof

/-- Error kinds, following the spec's taxonomy.  Every `invalid_data_error!`
site of `get_next_number` maps to `malformedNumber`; the two function-name
failure sites of `on_line` map to `malformedFunctionName`; the header check in
`collapse` maps to `unexpectedHeader`; the `assert_eq!(prev_depth + 1, depth)`
panic maps to `treeStructureViolation`. -/
inductive Err where
  | unexpectedHeader
  | malformedFunctionName
  | malformedNumber
  | treeStructureViolation
  deriving DecidableEq, Repr

/-- Rust `str::strip_prefix(c)`: remove a single leading character `c`. -/
def stripChar (c : Char) (s : List Char) : Option (List Char) :=
  match s with
  | [] => none
  | x :: xs => if x = c then some xs else none

/-- Rust `str::split_once(c)`: split at the first occurrence of `c`. -/
def splitOnce (c : Char) : List Char → Option (List Char × List Char)
  | [] => none
  | x :: xs =>
    if x = c then some ([], xs)
    else
      match splitOnce c xs with
      | some (a, b) => some (x :: a, b)
      | none => none

/-- Rust `str::split(pred)`: split on every char satisfying `pred`, keeping
empty segments; the empty string yields one empty segment. -/
def splitPred (p : Char → Bool) : List Char → List (List Char)
  | [] => [[]]
  | x :: xs =>
    if p x then [] :: splitPred p xs
    else
      match splitPred p xs with
      | [] => [[x]]
      | a :: rest => (x :: a) :: rest

/-- Numeric value of an ASCII digit. -/
def digitVal (c : Char) : Nat := c.toNat - 48

/-- Rust `str::parse::<usize>()` as used in `get_next_number`.  The call sites
only ever pass (possibly empty) runs of ASCII digits, because the groups come
from splitting on non-digit characters; an empty run fails, a digit run parses
(machine-width overflow is not modelled, no claim depends on it). -/
def parseNatDigits (s : List Char) : Option Nat :=
  match s with
  | [] => none
  | ds => if ds.all Char.isDigit then some (ds.foldl (fun n c => n * 10 + digitVal c) 0) else none

/-- The thousands-group loop of `get_next_number` (lines 196-221 of
`vsprof.rs`): `n` is the accumulator; while `n == 0` a group may be 1-3 digits,
otherwise it must be exactly 3 digits; each group is multiplied in. -/
def parseGroupsAux (n : Nat) : List (List Char) → Except Err Nat
  | [] => .ok n
  | g :: gs =>
    if n = 0 ∧ g.length > 3 then .error .malformedNumber
    else if n ≠ 0 ∧ g.length ≠ 3 then .error .malformedNumber
    else
      match parseNatDigits g with
      | some v => parseGroupsAux (n * 1000 + v) gs
      | none => .error .malformedNumber

/-- `get_next_number` (vsprof.rs lines 181-236): strip one leading comma,
detect a quoted (thousands-grouped) or bare number field, validate grouping,
and return the value together with the remainder of the line (with the stray
comma after a closing quote consumed). -/
def get_next_number (line : List Char) : Except Err (Nat × List Char) :=
  let line1 := (stripChar ',' line).getD line
  match stripChar '"' line1 with
  | some afterQuote =>
    match splitOnce '"' afterQuote with
    | some (num, remainder) =>
      match parseGroupsAux 0 (splitPred (fun c => !c.isDigit) num) with
      | .ok n =>
        match stripChar ',' remainder with
        | some r => .ok (n, r)
        | none => .ok (n, remainder)
      | .error e => .error e
    | none => .error .malformedNumber
  | none =>
    match splitOnce ',' line1 with
    | some (num, remainder) =>
      match parseGroupsAux 0 (splitPred (fun c => !c.isDigit) num) with
      | .ok n => .ok (n, remainder)
      | .error e => .error e
    | none => .error .malformedNumber

/-- The parsing phase of `Folder::on_line` (lines 79-91): extract
`(depth, function_name, number_of_calls)` from a data line. -/
def parseLine (line : List Char) : Except Err (Nat × List Char × Nat) :=
  match get_next_number line with
  | .error e => .error e
  | .ok (depth, remainder) =>
    match stripChar '"' remainder with
    | none => .error .malformedFunctionName
    | some afterQuote =>
      match splitOnce '"' afterQuote with
      | none => .error .malformedFunctionName
      | some (fname, remainder2) =>
        match get_next_number remainder2 with
        | .error e => .error e
        | .ok (calls, _) => .ok (depth, fname, calls)

/-- One stack entry `(function_name, number_of_calls)`.  The Rust `Vec` pushes
to the back; here the TOP of the stack is the HEAD of the list. -/
abbrev Frame := List Char × Nat

/-- An emitted (call-path, weight) pair. -/
abbrev Sample := List Char × Nat

/-- Rust `Vec<&str>::join(";")`. -/
def joinSemi : List (List Char) → List Char
  | [] => []
  | [f] => f
  | f :: rest => f ++ ';' :: joinSemi rest

/-- The call-path string of a stack: function names from root to top joined
with `;` (the list is reversed because the top is the head here). -/
def pathOf (stack : List Frame) : List Char :=
  joinSemi (stack.map Prod.fst).reverse

/-- `Folder::write_stack` (lines 165-170): emit one sample for the current
full path, weighted by the top frame's count, skipped when the stack is empty
or the count is 0. -/
def writeStackList (stack : List Frame) : List Sample :=
  match stack with
  | [] => []
  | (_, n) :: _ => if 0 < n then [(pathOf stack, n)] else []

/-- The `Ordering::Greater` loop of `Folder::on_line` (lines 135-151): close
`k` frames, carrying the previously popped count in `prev`; a frame is written
out unless its count equals the carry, and after each pop the carry is
subtracted from the new top when strictly smaller.  The `[]` case for a
positive count is unreachable from `step` (the Rust `unwrap` would panic). -/
def closeFrames : Nat → Nat → List Frame → List Sample → List Frame × List Sample
  | 0, _, stack, acc => (stack, acc)
  | _ + 1, _, [], acc => ([], acc)
  | k + 1, prev, (f, n) :: rest, acc =>
    let acc1 := if prev ≠ n then acc ++ writeStackList ((f, n) :: rest) else acc
    match rest with
    | [] => ([], acc1)
    | (g, m) :: rest2 =>
      closeFrames k n (if n < m then (g, m - n) :: rest2 else (g, m) :: rest2) acc1

/-- The depth-dispatch of `Folder::on_line` (lines 93-156) on an
already-parsed line.  The `assert_eq!(prev_depth + 1, depth)` panic is
modelled as the fatal `treeStructureViolation` error. -/
def step (stack : List Frame) (depth : Nat) (fname : List Char) (calls : Nat) :
    Except Err (List Frame × List Sample) :=
  let prevDepth := stack.length
  if prevDepth < depth then
    if prevDepth + 1 = depth then .ok ((fname, calls) :: stack, [])
    else .error .treeStructureViolation
  else if prevDepth = depth then
    .ok ((fname, calls) :: stack.tail, writeStackList stack)
  else
    let r := closeFrames (prevDepth - depth + 1) 0 stack []
    .ok ((fname, calls) :: r.1, r.2)

/-- `Folder::on_line` (lines 78-162): parse, then dispatch on the depth. -/
def on_line (stack : List Frame) (line : List Char) :
    Except Err (List Frame × List Sample) :=
  match parseLine line with
  | .error e => .error e
  | .ok (d, f, c) => step stack d f c

/-- Process a list of already-parsed lines, accumulating emissions in order. -/
def observeAll (stack : List Frame) :
    List (Nat × List Char × Nat) → Except Err (List Frame × List Sample)
  | [] => .ok (stack, [])
  | (d, f, c) :: rest =>
    match step stack d f c with
    | .error e => .error e
    | .ok (st1, em1) =>
      match observeAll st1 rest with
      | .error e => .error e
      | .ok (st2, em2) => .ok (st2, em1 ++ em2)

/-- Rust `str::trim_end` (the source only ever feeds it ASCII whitespace). -/
def trimEnd (s : List Char) : List Char :=
  (s.reverse.dropWhile Char.isWhitespace).reverse

/-- Rust `str::trim`. -/
def trimBoth (s : List Char) : List Char :=
  trimEnd (s.dropWhile Char.isWhitespace)

/-- Rust `str::trim_start_matches('\u{feff}')`: drop all leading zero-width
no-break spaces. -/
def stripMarks (s : List Char) : List Char :=
  s.dropWhile (fun c => c = '\uFEFF')

/-- The fixed header signature (vsprof.rs line 7). -/
def START_LINE : List Char :=
  "Level,Function Name,Number of Calls,Elapsed Inclusive Time %,Elapsed Exclusive Time %,Avg Elapsed Inclusive Time,Avg Elapsed Exclusive Time,Module Name,".data

/-- `line_matches_start_line` (lines 241-245): trim, strip markers, and test
whether the signature is a PREFIX of what remains. -/
def line_matches_start_line (line : List Char) : Bool :=
  List.isPrefixOf START_LINE (stripMarks (trimBoth line))

/-- Rust `str::lines().next()`: `none` on the empty string, otherwise the text
before the first newline, with a trailing carriage return removed only when a
newline was actually present. -/
def lines_next (input : List Char) : Option (List Char) :=
  match input with
  | [] => none
  | _ :: _ =>
    let l := input.takeWhile (fun c => c != '\n')
    if l.length < input.length ∧ l.getLast? = some '\r' then some l.dropLast
    else some l

/-- `Folder::is_applicable` (lines 64-71).  The Rust code calls
`.expect(...)` on the first line; the panic on an empty input is modelled as
`none` (the function otherwise always returns `some`). -/
def is_applicable (input : List Char) : Option Bool :=
  (lines_next input).map line_matches_start_line

/-- The data loop of `Folder::collapse` (lines 40-52): trim each line's end,
skip blanks, feed the rest to `on_line`.  Returns the error (if any), the
stack as the run left it, and the samples pushed so far. -/
def processRaw (stack : List Frame) :
    List (List Char) → Option Err × List Frame × List Sample
  | [] => (none, stack, [])
  | l :: ls =>
    let t := trimEnd l
    if t = [] then processRaw stack ls
    else
      match on_line stack t with
      | .error e => (some e, stack, [])
      | .ok (st1, em1) =>
        match processRaw st1 ls with
        | (oe, st2, em2) => (oe, st2, em1 ++ em2)

/-- `Folder::collapse` (lines 17-62) on an input pre-split into lines, with
the Folder's stack threaded explicitly (`&mut self`).  An empty input returns
`Ok` without touching the stack; a header mismatch or a line error aborts with
the stack left as-is (line 60's `self.stack.clear()` is only reached on the
success path); on success the samples (including the final `write_stack`) are
returned and the stack is cleared. -/
def collapseSt (stack : List Frame) (input : List (List Char)) :
    Except Err (List Sample) × List Frame :=
  match input with
  | [] => (.ok [], stack)
  | header :: rest =>
    if line_matches_start_line header then
      match processRaw stack rest with
      | (none, st, em) => (.ok (em ++ writeStackList st), [])
      | (some e, st, _) => (.error e, st)
    else (.error .unexpectedHeader, stack)

/-- Sum of the weights of a sample list. -/
def sumWeights (l : List Sample) : Nat := (l.map Prod.snd).sum

/-- Total weight emitted by a full run over parsed lines from an empty stack
(emissions during the run plus the final `write_stack`); `none` if the run
errors. -/
def runTotal (lines : List (Nat × List Char × Nat)) : Option Nat :=
  match observeAll [] lines with
  | .ok (st, em) => some (sumWeights em + sumWeights (writeStackList st))
  | .error _ => none

/-- Stack length after a full run over parsed lines from an empty stack;
`none` if the run errors. -/
def runStackLen (lines : List (Nat × List Char × Nat)) : Option Nat :=
  match observeAll [] lines with
  | .ok (st, _) => some st.length
  | .error _ => none

/-- Validity of a parsed line sequence relative to the current stack length
`n`: every depth is at least 1 and exceeds the running depth by at most one. -/
def validFrom (n : Nat) : List (Nat × List Char × Nat) → Bool
  | [] => true
  | (d, _, _) :: rest => decide (1 ≤ d) && decide (d ≤ n + 1) && validFrom d rest

/-- Every pair in the list has a positive count. -/
def allPos (l : List (List Char × Nat)) : Prop := ∀ s ∈ l, 0 < s.2

/-- The depth of the last line, with default `n` for the empty sequence. -/
def lastD (n : Nat) : List (Nat × List Char × Nat) → Nat
  | [] => n
  | (d, _, _) :: rest => lastD d rest

/-! ### Concrete example data (spec §8 end-to-end scenario) -/

/-- The spec's end-to-end input, pre-split into lines. -/
def exInput : List (List Char) :=
  [START_LINE,
   "1,\"Main\",1,100.00,0.00,10.00,0.00,\"app.exe\",".data,
   "2,\"A\",500,90.00,10.00,9.00,1.00,\"app.exe\",".data,
   "3,\"B\",300,50.00,50.00,5.00,5.00,\"app.exe\",".data,
   "3,\"C\",200,40.00,40.00,4.00,4.00,\"app.exe\",".data,
   "2,\"D\",100,10.00,10.00,1.00,1.00,\"app.exe\",".data]

/-- The spec's end-to-end scenario as parsed `(depth, name, calls)` lines. -/
def exLines : List (Nat × List Char × Nat) :=
  [(1, "Main".data, 1), (2, "A".data, 500), (3, "B".data, 300),
   (3, "C".data, 200), (2, "D".data, 100)]

/-- A run that aborts on its third line (`x` is not parseable). -/
def c8in1 : List (List Char) :=
  [START_LINE, "1,\"Main\",1,".data, "x".data]

/-- A well-formed single-frame run. -/
def c8in2 : List (List Char) :=
  [START_LINE, "1,\"D\",5,".data]

/-! ### Case lemmas for `step` -/

theorem step_push (st : List Frame) (d : Nat) (f : List Char) (c : Nat)
    (h : st.length + 1 = d) : step st d f c = .ok ((f, c) :: st, []) := by
  unfold step
  rw [if_pos (by omega), if_pos h]

theorem step_eq_case (st : List Frame) (d : Nat) (f : List Char) (c : Nat)
    (h : st.length = d) : step st d f c = .ok ((f, c) :: st.tail, writeStackList st) := by
  unfold step
  rw [if_neg (by omega), if_pos h]

theorem step_gt_case (st : List Frame) (d : Nat) (f : List Char) (c : Nat)
    (h : d < st.length) :
    step st d f c =
      .ok ((f, c) :: (closeFrames (st.length - d + 1) 0 st []).1,
        (closeFrames (st.length - d + 1) 0 st []).2) := by
  unfold step
  rw [if_neg (by omega), if_neg (by omega)]

/-- C4: a parsed line whose depth exceeds the current stack length by more
than one makes `on_line` fail the run with `treeStructureViolation` (the
source's `assert_eq!(prev_depth + 1, depth)` aborting the run). -/
theorem C4_step_tree_violation (st : List Frame) (d : Nat) (f : List Char) (c : Nat)
    (h : st.length + 1 < d) : step st d f c = .error .treeStructureViolation := by
  unfold step
  rw [if_pos (by omega), if_neg (by omega)]

/-- Witness for C4 at depth 2 on an empty stack. -/
theorem C4_step_tree_violation_witness :
    step [] 2 "f".data 7 = .error .treeStructureViolation :=
  C4_step_tree_violation [] 2 "f".data 7 (by decide)

/-! ### C1: the end-to-end scenario -/

/-- C1: on the spec's end-to-end input, the collapser succeeds and emits
exactly the pairs `Main;A;B`=300, `Main;A;C`=200, `Main;A`=300, `Main;D`=100
(and no others). -/
theorem C1_end_to_end :
    (collapseSt [] exInput).1 =
      .ok [("Main;A;B".data, 300), ("Main;A;C".data, 200),
           ("Main;A".data, 300), ("Main;D".data, 100)] := by
  rfl

/-! ### C2: conservation fails on the spec's own example -/

/-- C2 counterexample: on the spec's end-to-end tree (root `Main` reported
with call count 1, no recursion), the total emitted weight is 900, not the
root's reported call count 1. -/
theorem C2_counterexample :
    runTotal exLines = some 900 ∧
    exLines.head? = some (1, "Main".data, 1) ∧ (900 : Nat) ≠ 1 := by
  refine ⟨by rfl, by rfl, by decide⟩

/-! ### C7: the adjacent-pair ordering fails on the spec's own example -/

/-- C7 counterexample: after the valid lines `(1,Main,1)`, `(2,A,500)` the
stack holds the adjacent pair (top first) `A` with original count 500 over
`Main` with current count 1, and `500 ≤ 1` is false. -/
theorem C7_counterexample :
    observeAll [] [(1, "Main".data, 1), (2, "A".data, 500)] =
      .ok ([("A".data, 500), ("Main".data, 1)], []) ∧
    ¬ (500 : Nat) ≤ 1 := by
  refine ⟨by rfl, by decide⟩

/-! ### C5: grouping validation -/

/-- Once the accumulator of the grouping loop is nonzero, a group whose width
is not exactly 3 makes the whole parse fail as `malformedNumber`. -/
theorem parseGroupsAux_wrong_width (gs : List (List Char)) :
    ∀ n : Nat, n ≠ 0 → (∃ g, g ∈ gs ∧ g.length ≠ 3) →
      parseGroupsAux n gs = .error .malformedNumber := by
  induction gs with
  | nil =>
    intro n _ hbad
    rcases hbad with ⟨g, hg, _⟩
    exact absurd hg (List.not_mem_nil g)
  | cons g gs ih =>
    intro n hn hbad
    unfold parseGroupsAux
    rw [if_neg (fun hc => hn hc.1)]
    by_cases hlen : g.length = 3
    · rw [if_neg (fun hc => hc.2 hlen)]
      rcases hbad with ⟨b, hb, hlb⟩
      rcases List.mem_cons.mp hb with rfl | hb2
      · exact absurd hlen hlb
      · cases hpn : parseNatDigits g with
        | some v => exact ih (n * 1000 + v) (by omega) ⟨b, hb2, hlb⟩
        | none => rfl
    · rw [if_pos ⟨hn, hlen⟩]

/-- C5 counterexample: the field `0.5` contains a decimal separator yet
`get_next_number` accepts it (as 5), because the width check reverts to the
lenient first-group rule whenever the accumulated value is still 0. -/
theorem C5_counterexample :
    get_next_number "0.5,x".data = .ok (5, "x".data) ∧ '.' ∈ "0.5".data := by
  refine ⟨by rfl, by decide⟩

/-- C5 amended: the three concrete behaviours named by the spec hold
(`"2,893,824"` parses to 2893824; `"12,34"` and `12.5` fail as
`malformedNumber`), and the wrong-width rejection holds whenever the
accumulated value is nonzero — but not in general (`0.5` parses to 5). -/
theorem C5_amended_grouping :
    get_next_number "\"2,893,824\",x".data = .ok (2893824, "x".data) ∧
    get_next_number "\"12,34\",x".data = .error .malformedNumber ∧
    get_next_number "12.5,x".data = .error .malformedNumber ∧
    get_next_number "0.5,x".data = .ok (5, "x".data) ∧
    (∀ (n : Nat) (gs : List (List Char)), n ≠ 0 →
      (∃ g, g ∈ gs ∧ g.length ≠ 3) →
      parseGroupsAux n gs = .error .malformedNumber) := by
  refine ⟨by rfl, by rfl, by rfl, by rfl, ?_⟩
  intro n gs hn hbad
  exact parseGroupsAux_wrong_width gs n hn hbad

/-- Witness for the universally quantified part of the amended C5. -/
theorem C5_amended_grouping_witness :
    parseGroupsAux 12 ["34".data] = .error .malformedNumber :=
  C5_amended_grouping.2.2.2.2 12 ["34".data] (by decide)
    ⟨"34".data, by simp, by decide⟩

/-! ### C6: the applicability probe is a prefix match, not an equality test -/

set_option maxRecDepth 20000 in
/-- C6 counterexample: an input whose first line strictly extends the header
signature is accepted by the probe even though the line is not exactly the
signature. -/
theorem C6_counterexample :
    is_applicable (START_LINE ++ "X".data) = some true ∧
    stripMarks (trimBoth (START_LINE ++ "X".data)) ≠ START_LINE := by
  refine ⟨by rfl, by decide⟩

/-- C6 amended: the probe returns true iff the first line, after trimming
surrounding whitespace and stripping all leading zero-width markers, STARTS
WITH the fixed header signature (prefix match; in particular it accepts the
exact signature, with or without marker and whitespace). -/
theorem C6_amended_prefix_match (input l : List Char)
    (h : lines_next input = some l) :
    is_applicable input = some true ↔
      ∃ rest, START_LINE ++ rest = stripMarks (trimBoth l) := by
  unfold is_applicable
  rw [h, Option.map_some']
  rw [Option.some_inj]
  unfold line_matches_start_line
  exact List.isPrefixOf_iff_prefix

set_option maxRecDepth 20000 in
/-- Witness for C6: the exact signature as first (and only) line is accepted. -/
theorem C6_amended_prefix_match_witness : is_applicable START_LINE = some true :=
  (C6_amended_prefix_match START_LINE START_LINE rfl).mpr ⟨[], by decide⟩

/-! ### C8: the stack is only cleared on the success path -/

/-- C8 counterexample: `c8in1` aborts on its unparsable third line, leaving
the frame `("Main", 1)` on the stack (the claim says the stack is cleared even
for aborting runs); reusing that state on `c8in2` then emits a `Main` sample a
fresh instance does not produce. -/
theorem C8_counterexample :
    (collapseSt [] c8in1).1 = .error .malformedNumber ∧
    (collapseSt [] c8in1).2 = [("Main".data, 1)] ∧
    (collapseSt (collapseSt [] c8in1).2 c8in2).1 =
      .ok [("Main".data, 1), ("D".data, 5)] ∧
    (collapseSt [] c8in2).1 = .ok [("D".data, 5)] ∧
    ([("Main".data, 1), ("D".data, 5)] : List Sample) ≠ [("D".data, 5)] := by
  refine ⟨by rfl, by rfl, by rfl, by rfl, by decide⟩

/-- C8 amended: the stack is cleared (only) at the end of each SUCCESSFUL
run on a non-empty input; consequently a subsequent run on the same instance
behaves exactly like a fresh instance.  (Runs that abort on a parse error — and
empty inputs — do not clear the stack.) -/
theorem C8_amended_clear_on_success (st : List Frame)
    (input input2 : List (List Char)) (out : List Sample)
    (hne : input ≠ []) (h : (collapseSt st input).1 = .ok out) :
    (collapseSt st input).2 = [] ∧
    collapseSt (collapseSt st input).2 input2 = collapseSt [] input2 := by
  cases input with
  | nil => exact absurd rfl hne
  | cons header rest =>
    have hfst : (collapseSt st (header :: rest)).2 = [] := by
      simp only [collapseSt] at h ⊢
      by_cases hm : line_matches_start_line header = true
      · rw [if_pos hm] at h ⊢
        rcases hpr : processRaw st rest with ⟨oe, st1, em⟩
        rw [hpr] at h
        cases oe with
        | none => rfl
        | some e => exact Except.noConfusion h
      · rw [if_neg hm] at h
        exact Except.noConfusion h
    exact ⟨hfst, by rw [hfst]⟩

/-- Witness for C8: a successful header-only run from a dirty stack clears it
and makes the follow-up run agree with a fresh one. -/
theorem C8_amended_clear_on_success_witness :
    (collapseSt [("x".data, 1)] [START_LINE]).2 = [] ∧
    collapseSt (collapseSt [("x".data, 1)] [START_LINE]).2 c8in2 =
      collapseSt [] c8in2 :=
  C8_amended_clear_on_success [("x".data, 1)] [START_LINE] c8in2
    [("x".data, 1)] (by simp) (by rfl)

/-! ### C3: the depth invariant -/

/-- Closing `k ≤ |st|` frames leaves exactly `|st| - k` frames. -/
theorem closeFrames_length (k : Nat) :
    ∀ (p : Nat) (st : List Frame) (acc : List Sample), k ≤ st.length →
      ((closeFrames k p st acc).1).length = st.length - k := by
  induction k with
  | zero =>
    intro p st acc _
    simp [closeFrames]
  | succ k ih =>
    intro p st acc hk
    rcases st with _ | ⟨⟨f, n⟩, rest⟩
    · simp at hk
    · rcases rest with _ | ⟨⟨g, m⟩, rest2⟩
      · have hk0 : k = 0 := by simp at hk; omega
        subst hk0
        simp [closeFrames]
      · have hlen :
            ((if n < m then (g, m - n) :: rest2 else (g, m) :: rest2) : List Frame).length =
              rest2.length + 1 := by
          by_cases h : n < m <;> simp [h]
        have hk' :
            k ≤ ((if n < m then (g, m - n) :: rest2 else (g, m) :: rest2) : List Frame).length := by
          rw [hlen]
          simp at hk
          omega
        simp only [closeFrames]
        rw [ih n _ _ hk', hlen]
        simp only [List.length_cons] at hk ⊢
        omega

/-- A line whose depth is at least 1 and at most one more than the stack
length is processed successfully and leaves the stack at exactly that depth. -/
theorem step_length_valid (st : List Frame) (d : Nat) (f : List Char) (c : Nat)
    (h1 : 1 ≤ d) (h2 : d ≤ st.length + 1) :
    ∃ st1 em, step st d f c = .ok (st1, em) ∧ st1.length = d := by
  rcases Nat.lt_trichotomy st.length d with hlt | heq | hgt
  · have hpush : st.length + 1 = d := by omega
    refine ⟨(f, c) :: st, [], step_push st d f c hpush, ?_⟩
    simpa using hpush
  · refine ⟨(f, c) :: st.tail, writeStackList st, step_eq_case st d f c heq, ?_⟩
    rcases st with _ | ⟨x, xs⟩
    · simp at heq; omega
    · simpa using heq
  · refine ⟨_, _, step_gt_case st d f c hgt, ?_⟩
    have hk : st.length - d + 1 ≤ st.length := by omega
    simp [closeFrames_length (st.length - d + 1) 0 st [] hk]
    omega

/-- Processing a sequence that is valid for the current stack length succeeds
and leaves the stack at the depth of its last line. -/
theorem observe_valid (lines : List (Nat × List Char × Nat)) :
    ∀ st : List Frame, validFrom st.length lines = true →
      ∃ st1 em, observeAll st lines = .ok (st1, em) ∧
        st1.length = lastD st.length lines := by
  induction lines with
  | nil =>
    intro st _
    exact ⟨st, [], rfl, rfl⟩
  | cons l rest ih =>
    obtain ⟨d, f, c⟩ := l
    intro st hv
    simp only [validFrom, Bool.and_eq_true, decide_eq_true_eq] at hv
    obtain ⟨⟨h1, h2⟩, hrest⟩ := hv
    obtain ⟨st1, em1, hstep, hlen⟩ := step_length_valid st d f c h1 h2
    have hrest1 : validFrom st1.length rest = true := by rw [hlen]; exact hrest
    obtain ⟨st2, em2, hobs, hlen2⟩ := ih st1 hrest1
    refine ⟨st2, em1 ++ em2, ?_, ?_⟩
    · simp only [observeAll, hstep, hobs]
    · rw [hlen2, hlen]
      rfl

/-- Validity of a concatenation gives validity of the left part. -/
theorem validFrom_append (p q : List (Nat × List Char × Nat)) :
    ∀ n : Nat, validFrom n (p ++ q) = true → validFrom n p = true := by
  induction p with
  | nil =>
    intro n _
    rfl
  | cons l rest ih =>
    obtain ⟨d, f, c⟩ := l
    intro n h
    simp only [List.cons_append, validFrom, Bool.and_eq_true] at h ⊢
    exact ⟨h.1, ih d h.2⟩

/-- `lastD` is the depth of the last line. -/
theorem lastD_eq_getLast (p : List (Nat × List Char × Nat)) :
    ∀ (n : Nat) (hne : p ≠ []), lastD n p = (p.getLast hne).1 := by
  induction p with
  | nil =>
    intro n hne
    exact absurd rfl hne
  | cons l rest ih =>
    intro n hne
    obtain ⟨d, f, c⟩ := l
    rcases rest with _ | ⟨m, rest2⟩
    · rfl
    · have h1 : lastD n ((d, f, c) :: m :: rest2) = lastD d (m :: rest2) := rfl
      rw [h1, ih d (List.cons_ne_nil m rest2)]
      simp [List.getLast_cons]

/-- C3: for every non-empty prefix of a valid line sequence (depths at least 1,
never jumping more than one deeper), processing the prefix from an empty stack
succeeds and the final stack length equals the prefix's last depth. -/
theorem C3_depth_invariant (pre rest : List (Nat × List Char × Nat))
    (h : validFrom 0 (pre ++ rest) = true) (hne : pre ≠ []) :
    runStackLen pre = some ((pre.getLast hne).1) := by
  have hp : validFrom 0 pre = true := validFrom_append pre rest 0 h
  obtain ⟨st1, em, hobs, hlen⟩ := observe_valid pre ([] : List Frame) hp
  simp only [List.length_nil] at hlen
  simp only [runStackLen, hobs]
  rw [hlen, lastD_eq_getLast pre 0 hne]

/-- Witness for C3 on the singleton valid sequence of depth 1. -/
theorem C3_depth_invariant_witness : runStackLen [(1, "a".data, 1)] = some 1 := by
  have h := C3_depth_invariant [(1, "a".data, 1)] [] (by decide) (by simp)
  simpa using h

/-! ### C2 amended: conservation for two-level trees -/

theorem sumWeights_append (a b : List Sample) :
    sumWeights (a ++ b) = sumWeights a + sumWeights b := by
  simp [sumWeights]

/-- The weight written for a non-empty stack is exactly the top count (also
when that count is 0 and the emission is skipped). -/
theorem sumWeights_writeStackList (f : List Char) (c : Nat) (tail : List Frame) :
    sumWeights (writeStackList ((f, c) :: tail)) = c := by
  by_cases hc : 0 < c
  · simp [writeStackList, hc, sumWeights]
  · have hc0 : c = 0 := by omega
    subst hc0
    simp [writeStackList, sumWeights]

/-- Processing a chain of depth-2 siblings over a fixed root: each sibling's
count is handed over exactly once (by the equal-depth emission or the final
`write_stack`), so the total emitted weight is the sum of the counts. -/
theorem equal_chain (root : List Char) (r : Nat) (rest : List (List Char × Nat)) :
    ∀ (f : List Char) (c : Nat),
      ∃ st em,
        observeAll [(f, c), (root, r)]
            (rest.map (fun p => ((2 : Nat), p.1, p.2))) = .ok (st, em) ∧
        sumWeights em + sumWeights (writeStackList st) =
          c + (rest.map Prod.snd).sum := by
  induction rest with
  | nil =>
    intro f c
    refine ⟨[(f, c), (root, r)], [], rfl, ?_⟩
    rw [sumWeights_writeStackList]
    simp [sumWeights]
  | cons gd rest ih =>
    obtain ⟨g, d⟩ := gd
    intro f c
    obtain ⟨st, em, hobs, hsum⟩ := ih g d
    have hstep : step [(f, c), (root, r)] 2 g d =
        .ok ([(g, d), (root, r)], writeStackList [(f, c), (root, r)]) := by
      have h := step_eq_case [(f, c), (root, r)] 2 g d (by simp)
      simpa using h
    refine ⟨st, writeStackList [(f, c), (root, r)] ++ em, ?_, ?_⟩
    · simp only [List.map_cons, observeAll, hstep, hobs]
    · rw [sumWeights_append, sumWeights_writeStackList]
      simp only [List.map_cons, List.sum_cons]
      rw [Nat.add_assoc, hsum]

/-- C2 amended: for a two-level call tree — a root line at depth 1 followed by
its (at least one) leaf children at depth 2 — whose children's call counts sum
to the root's reported count, the total emitted weight over the whole run
(including the final emission) equals the root's reported call count.  (The
original unrestricted conservation claim is refuted by `C2_counterexample`.) -/
theorem C2_amended_two_level (root : List Char) (r : Nat)
    (children : List (List Char × Nat)) (hne : children ≠ [])
    (hsum : (children.map Prod.snd).sum = r) :
    runTotal ((1, root, r) :: children.map (fun p => ((2 : Nat), p.1, p.2))) =
      some r := by
  rcases children with _ | ⟨⟨f, c⟩, rest⟩
  · exact absurd rfl hne
  · obtain ⟨st, em, hobs, hsum2⟩ := equal_chain root r rest f c
    have h1 : step ([] : List Frame) 1 root r = .ok ([(root, r)], []) :=
      step_push [] 1 root r rfl
    have h2 : step [(root, r)] 2 f c = .ok ([(f, c), (root, r)], []) :=
      step_push [(root, r)] 2 f c rfl
    simp only [List.map_cons, runTotal, observeAll, h1, h2, hobs, List.nil_append]
    simp only [List.map_cons, List.sum_cons] at hsum
    rw [hsum2, hsum]

/-- Witness for the amended C2: root count 2 with two children of count 1. -/
theorem C2_amended_two_level_witness :
    runTotal [(1, "R".data, 2), (2, "a".data, 1), (2, "b".data, 1)] = some 2 := by
  have h := C2_amended_two_level "R".data 2 [("a".data, 1), ("b".data, 1)]
    (by simp) (by decide)
  simpa using h

/-! ### C7 amended and C9: positivity -/

/-- Closing frames keeps every remaining count positive: the subtraction is
guarded by `prev < count`, so a corrected count stays at least 1. -/
theorem allPos_closeFrames (k : Nat) :
    ∀ (p : Nat) (st : List Frame) (acc : List Sample),
      allPos st → allPos (closeFrames k p st acc).1 := by
  induction k with
  | zero =>
    intro p st acc h
    exact h
  | succ k ih =>
    intro p st acc h
    rcases st with _ | ⟨⟨f, n⟩, rest⟩
    · intro s hs
      simp [closeFrames] at hs
    · rcases rest with _ | ⟨⟨g, m⟩, rest2⟩
      · intro s hs
        simp [closeFrames] at hs
      · simp only [closeFrames]
        apply ih
        by_cases hm : n < m
        · rw [if_pos hm]
          intro s hs
          rcases List.mem_cons.mp hs with rfl | hs2
          · show 0 < m - n
            omega
          · exact h s (by simp [hs2])
        · rw [if_neg hm]
          intro s hs
          rcases List.mem_cons.mp hs with rfl | hs2
          · exact h (g, m) (by simp)
          · exact h s (by simp [hs2])

/-- A successful `step` on a line with positive count keeps all stack counts
positive. -/
theorem allPos_step (st st1 : List Frame) (d : Nat) (f : List Char) (c : Nat)
    (em : List Sample) (hstep : step st d f c = .ok (st1, em))
    (hc : 0 < c) (h : allPos st) : allPos st1 := by
  unfold step at hstep
  by_cases h1 : st.length < d
  · rw [if_pos h1] at hstep
    by_cases h2 : st.length + 1 = d
    · rw [if_pos h2] at hstep
      simp only [Except.ok.injEq, Prod.mk.injEq] at hstep
      obtain ⟨h3, -⟩ := hstep
      subst h3
      intro s hs
      rcases List.mem_cons.mp hs with rfl | hs2
      · exact hc
      · exact h s hs2
    · rw [if_neg h2] at hstep
      exact Except.noConfusion hstep
  · rw [if_neg h1] at hstep
    by_cases h2 : st.length = d
    · rw [if_pos h2] at hstep
      simp only [Except.ok.injEq, Prod.mk.injEq] at hstep
      obtain ⟨h3, -⟩ := hstep
      subst h3
      intro s hs
      rcases List.mem_cons.mp hs with rfl | hs2
      · exact hc
      · exact h s (List.mem_of_mem_tail hs2)
    · rw [if_neg h2] at hstep
      simp only [Except.ok.injEq, Prod.mk.injEq] at hstep
      obtain ⟨h3, -⟩ := hstep
      subst h3
      intro s hs
      rcases List.mem_cons.mp hs with rfl | hs2
      · exact hc
      · exact allPos_closeFrames _ 0 st [] h s hs2

/-- Processing any successfully handled line sequence whose call counts are
all positive keeps all stack counts positive. -/
theorem allPos_observeAll (lines : List (Nat × List Char × Nat)) :
    ∀ (st st1 : List Frame) (em : List Sample),
      (∀ l ∈ lines, 0 < l.2.2) → allPos st →
      observeAll st lines = .ok (st1, em) → allPos st1 := by
  induction lines with
  | nil =>
    intro st st1 em _ h hobs
    simp only [observeAll, Except.ok.injEq, Prod.mk.injEq] at hobs
    obtain ⟨h3, -⟩ := hobs
    subst h3
    exact h
  | cons l rest ih =>
    obtain ⟨d, f, c⟩ := l
    intro st st1 em hl h hobs
    simp only [observeAll] at hobs
    cases hstep : step st d f c with
    | error e =>
      simp only [hstep] at hobs
      exact Except.noConfusion hobs
    | ok p =>
      obtain ⟨sta, ema⟩ := p
      simp only [hstep] at hobs
      cases hobs2 : observeAll sta rest with
      | error e =>
        simp only [hobs2] at hobs
        exact Except.noConfusion hobs
      | ok q =>
        obtain ⟨stb, emb⟩ := q
        simp only [hobs2] at hobs
        simp only [Except.ok.injEq, Prod.mk.injEq] at hobs
        obtain ⟨h3, -⟩ := hobs
        subst h3
        have hsta : allPos sta :=
          allPos_step st sta d f c ema hstep (hl (d, f, c) (by simp)) h
        exact ih sta stb emb (fun x hx => hl x (by simp [hx])) hsta hobs2

/-- C7 amended: after any successfully processed line sequence whose reported
call counts are all positive (starting from a stack of positive counts), every
frame on the active stack has a positive current call count — the correction
step subtracts a closed child's carried count from its parent only when
strictly smaller, so corrected counts never reach zero.  (The original
adjacent-pair ordering claim is refuted by `C7_counterexample`.) -/
theorem C7_amended_positive_counts (lines : List (Nat × List Char × Nat))
    (st st1 : List Frame) (em : List Sample)
    (hl : ∀ l ∈ lines, 0 < l.2.2) (hst : allPos st)
    (hobs : observeAll st lines = .ok (st1, em)) : allPos st1 :=
  allPos_observeAll lines st st1 em hl hst hobs

/-- Witness for the amended C7. -/
theorem C7_amended_positive_counts_witness : allPos [("a".data, 1)] :=
  C7_amended_positive_counts [(1, "a".data, 1)] [] [("a".data, 1)] []
    (by decide) (by intro s hs; exact absurd hs (List.not_mem_nil s)) (by rfl)

/-- Every sample produced by `write_stack` has positive weight (the `n > 0`
filter). -/
theorem allPos_writeStackList (st : List Frame) : allPos (writeStackList st) := by
  rcases st with _ | ⟨⟨f, n⟩, rest⟩
  · intro s hs
    exact absurd hs (List.not_mem_nil s)
  · by_cases hn : 0 < n
    · intro s hs
      simp only [writeStackList, if_pos hn] at hs
      have hs1 := List.mem_singleton.mp hs
      subst hs1
      exact hn
    · intro s hs
      simp only [writeStackList, if_neg hn] at hs
      exact absurd hs (List.not_mem_nil s)

theorem allPos_append (a b : List (List Char × Nat))
    (ha : allPos a) (hb : allPos b) : allPos (a ++ b) := by
  intro s hs
  rcases List.mem_append.mp hs with h | h
  · exact ha s h
  · exact hb s h

/-- Emissions accumulated by the closing loop all have positive weight. -/
theorem allPos_closeFrames_em (k : Nat) :
    ∀ (p : Nat) (st : List Frame) (acc : List Sample),
      allPos acc → allPos (closeFrames k p st acc).2 := by
  induction k with
  | zero =>
    intro p st acc h
    exact h
  | succ k ih =>
    intro p st acc h
    rcases st with _ | ⟨⟨f, n⟩, rest⟩
    · exact h
    · have hacc1 :
          allPos (if p ≠ n then acc ++ writeStackList ((f, n) :: rest) else acc) := by
        by_cases hp : p ≠ n
        · rw [if_pos hp]
          exact allPos_append _ _ h (allPos_writeStackList _)
        · rw [if_neg hp]
          exact h
      rcases rest with _ | ⟨⟨g, m⟩, rest2⟩
      · simp only [closeFrames]
        exact hacc1
      · simp only [closeFrames]
        exact ih n _ _ hacc1

/-- Emissions of a successful `step` all have positive weight. -/
theorem allPos_step_em (st st1 : List Frame) (d : Nat) (f : List Char) (c : Nat)
    (em : List Sample) (hstep : step st d f c = .ok (st1, em)) : allPos em := by
  unfold step at hstep
  by_cases h1 : st.length < d
  · rw [if_pos h1] at hstep
    by_cases h2 : st.length + 1 = d
    · rw [if_pos h2] at hstep
      simp only [Except.ok.injEq, Prod.mk.injEq] at hstep
      obtain ⟨-, h4⟩ := hstep
      subst h4
      intro s hs
      exact absurd hs (List.not_mem_nil s)
    · rw [if_neg h2] at hstep
      exact Except.noConfusion hstep
  · rw [if_neg h1] at hstep
    by_cases h2 : st.length = d
    · rw [if_pos h2] at hstep
      simp only [Except.ok.injEq, Prod.mk.injEq] at hstep
      obtain ⟨-, h4⟩ := hstep
      subst h4
      exact allPos_writeStackList st
    · rw [if_neg h2] at hstep
      simp only [Except.ok.injEq, Prod.mk.injEq] at hstep
      obtain ⟨-, h4⟩ := hstep
      subst h4
      exact allPos_closeFrames_em _ 0 st []
        (fun s hs => absurd hs (List.not_mem_nil s))

/-- Emissions of a successful `on_line` all have positive weight. -/
theorem allPos_on_line_em (st st1 : List Frame) (line : List Char)
    (em : List Sample) (h : on_line st line = .ok (st1, em)) : allPos em := by
  unfold on_line at h
  cases hp : parseLine line with
  | error e =>
    rw [hp] at h
    exact Except.noConfusion h
  | ok t =>
    obtain ⟨d, f, c⟩ := t
    rw [hp] at h
    exact allPos_step_em st st1 d f c em h

/-- All samples pushed during the data loop have positive weight. -/
theorem allPos_processRaw_em (input : List (List Char)) :
    ∀ st : List Frame, allPos (processRaw st input).2.2 := by
  induction input with
  | nil =>
    intro st s hs
    simp [processRaw] at hs
  | cons l ls ih =>
    intro st
    simp only [processRaw]
    by_cases ht : trimEnd l = []
    · rw [if_pos ht]
      exact ih st
    · rw [if_neg ht]
      cases hol : on_line st (trimEnd l) with
      | error e =>
        intro s hs
        simp at hs
      | ok p =>
        obtain ⟨st1, em1⟩ := p
        rcases hpr : processRaw st1 ls with ⟨oe, st2, em2⟩
        have h2 : allPos em2 := by
          have h3 := ih st1
          rw [hpr] at h3
          exact h3
        show allPos (em1 ++ (processRaw st1 ls).2.2)
        rw [hpr]
        exact allPos_append _ _ (allPos_on_line_em st st1 (trimEnd l) em1 hol) h2

/-- C9: every sample emitted by a successful full run has strictly positive
weight — a frame whose call count is 0 never produces an emitted sample. -/
theorem C9_positive_weights (st : List Frame) (input : List (List Char))
    (out : List Sample) (h : (collapseSt st input).1 = .ok out) : allPos out := by
  cases input with
  | nil =>
    simp only [collapseSt, Except.ok.injEq] at h
    subst h
    intro s hs
    exact absurd hs (List.not_mem_nil s)
  | cons header rest =>
    simp only [collapseSt] at h
    by_cases hm : line_matches_start_line header = true
    · rw [if_pos hm] at h
      rcases hpr : processRaw st rest with ⟨oe, st1, em⟩
      rw [hpr] at h
      cases oe with
      | none =>
        simp only [Except.ok.injEq] at h
        subst h
        refine allPos_append _ _ ?_ (allPos_writeStackList st1)
        have h3 := allPos_processRaw_em rest st
        rw [hpr] at h3
        exact h3
      | some e => exact Except.noConfusion h
    · rw [if_neg hm] at h
      exact Except.noConfusion h

/-- Witness for C9 on the single-frame run `c8in2`. -/
theorem C9_positive_weights_witness : allPos [("D".data, 5)] :=
  C9_positive_weights [] c8in2 [("D".data, 5)] (by rfl)

/-! ### C10: totality of the applicability probe -/

/-- C10: on every non-empty input the probe returns `some` of the header match
of the first line; on the empty input the first-line extraction finds no line
and the Rust code panics, modelled here as `none`. -/
theorem C10_probe_totality (input : List Char) (h : input ≠ []) :
    is_applicable input =
      some (line_matches_start_line ((lines_next input).getD [])) ∧
    is_applicable [] = none := by
  constructor
  · cases input with
    | nil => exact absurd rfl h
    | cons a as =>
      simp only [is_applicable, lines_next]
      split
      · simp
      · simp
  · rfl

/-- Witness for C10 at the one-character input `x`. -/
theorem C10_probe_totality_witness :
    is_applicable ['x'] =
      some (line_matches_start_line ((lines_next ['x']).getD [])) ∧
    is_applicable [] = none :=
  C10_probe_totality ['x'] (by simp)

end Vsprof
